import Mathlib

/-!
Verification development for the sanity-schema-graphviz-erd repository.

The repository core is shallow-embedded below. Two generations of the code
base coexist in the repository and are modelled side by side where claims
touch both:

* the modular code under `src/parsers/` and `src/converter/graph-converter.ts`
  (classes `BaseSchemaParser`, `SchemaClubParser`, `SanityParser`,
  `GraphConverter`), and
* the older monolithic `generate-schema-graph.ts` (kept here with its
  `SchemaClubParser.transformSchemaClubField` / `inferReferenceTarget` eager
  inference and its fully implemented `SanityParser`).

Modelling conventions:

* JavaScript string primitives (`toLowerCase`, `endsWith`-style regex suffix
  matching, whitespace removal) are re-implemented character-listwise with
  ASCII semantics, so that every definition evaluates inside the kernel.
* JS `Set` values are modelled as insertion-ordered duplicate-free lists;
  only membership (`has`) is ever consulted by the code.
* The external text-to-value parser (`JSON.parse` and the array-literal
  `eval` fallback) is an external collaborator; it is modelled as an oracle
  argument: the strict parse outcome (value or error message), whether the
  trimmed text is bracket-shaped, and the fallback evaluation outcome.
* Raw value-tree items are modelled with the same record shapes as the
  typed schema (`SchemaType`/`SchemaField`), with an absent string field
  modelled as `""` for required-string slots and `Option.none` elsewhere;
  every claim-relevant check in the code treats JS `undefined` and `""`
  alike (both falsy, both distinct from every nonempty name).
* Graphviz attribute bundles (colors, pens, arrowheads) are configuration
  data; an edge records its relationship-kind tag instead, exactly the
  distinction the code draws via `CONFIG.RELATIONSHIP_CONFIGS.<KIND>`.
  Node HTML labels are pure rendering and are not modelled; a created node
  is recorded by its identifier.
-/

/-! ## JS string primitives (ASCII semantics) -/

/-- ASCII lower-casing of one character, as `String.prototype.toLowerCase`
acts on ASCII input. -/
def lowerChar (c : Char) : Char :=
  if 'A' ≤ c ∧ c ≤ 'Z' then Char.ofNat (c.toNat + 32) else c

/-- `s.toLowerCase()` on ASCII input. -/
def strLower (s : String) : String := ⟨s.data.map lowerChar⟩

/-- Does `s` end with `suffixStr`? Kernel-reducible replacement for the
library routine. -/
def strEndsWith (s suffixStr : String) : Bool :=
  List.isSuffixOf suffixStr.data s.data

/-- Drop the last `n` characters of `s`. -/
def strDropRight (s : String) (n : Nat) : String :=
  ⟨s.data.take (s.data.length - n)⟩

/-- `s.replace(/\s+/g, "")`: remove every ASCII whitespace character. -/
def removeWhitespace (s : String) : String :=
  ⟨s.data.filter (fun c => !(c = ' ' ∨ c = '\t' ∨ c = '\n' ∨ c = '\r'))⟩

/-- `fieldName.replace(/ref$|id$|_ref$|_id$/i, "")`.  The regex scan finds
the leftmost match position, so the longer suffix `_ref` wins over `ref`,
and `_id` wins over `id`; at most one (end-anchored) replacement happens.
Case-insensitivity is the `/i` flag on ASCII letters. -/
def cleanSuffix (s : String) : String :=
  let low := strLower s
  if strEndsWith low "_ref" then strDropRight s 4
  else if strEndsWith low "ref" then strDropRight s 3
  else if strEndsWith low "_id" then strDropRight s 3
  else if strEndsWith low "id" then strDropRight s 2
  else s

/-- Insertion-ordered duplicate-free list: the model of `new Set(array)` for
strings.  Only membership is consulted downstream. -/
def jsStringSet (l : List String) : List String :=
  l.foldl (fun acc x => if acc.contains x then acc else acc ++ [x]) []

/-! ## Canonical schema model (`src/types.ts`) -/

/-- `SchemaField` from `src/types.ts`: `type` is required, `name`/`title`
optional, `fields`/`of` optional nested field lists, `to` an optional list
of reference targets (each raw `{ type: string }` entry contributing its
`type` string).  The source field `of` is rendered `ofItems` and `to` is
rendered `toTargets` (`to` is a Lean keyword). -/
inductive SchemaField where
  | mk (type : String) (name : Option String) (title : Option String)
       (fields : Option (List SchemaField))
       (ofItems : Option (List SchemaField))
       (toTargets : Option (List String))

def SchemaField.type : SchemaField → String
  | .mk t _ _ _ _ _ => t

def SchemaField.name : SchemaField → Option String
  | .mk _ n _ _ _ _ => n

def SchemaField.title : SchemaField → Option String
  | .mk _ _ ti _ _ _ => ti

def SchemaField.fields : SchemaField → Option (List SchemaField)
  | .mk _ _ _ fs _ _ => fs

def SchemaField.ofItems : SchemaField → Option (List SchemaField)
  | .mk _ _ _ _ os _ => os

def SchemaField.toTargets : SchemaField → Option (List String)
  | .mk _ _ _ _ _ ts => ts

/-- `SchemaType` from `src/types.ts`. -/
structure SchemaType where
  name : String
  type : String
  title : Option String
  fields : Option (List SchemaField)
  ofItems : Option (List SchemaField)

/-- `ParsedSchema` from `src/types.ts`: the Type Registry state. -/
structure ParsedSchema where
  types : List SchemaType
  documentTypes : List String
  allTypeNames : List String

/-- `BaseSchemaParser.createParsedSchema` (`src/parsers/base-parser.ts`,
lines 46-62): build the registry from the type list.  The `types` list is
stored untouched; the two name sets are built with `new Set(...)`. -/
def createParsedSchema (types : List SchemaType)
    (documentTypeFilter : SchemaType → Bool) : ParsedSchema :=
  { types := types
    documentTypes := jsStringSet ((types.filter documentTypeFilter).map (fun t => t.name))
    allTypeNames := jsStringSet (types.map (fun t => t.name)) }

/-! ## Text-to-value parsing (`BaseSchemaParser.parseJsonOrJs`) -/

/-- Outcome of turning raw text into a generic value tree: either an array
of schema-shaped items or some non-array root. -/
inductive RawRoot where
  | arr (items : List SchemaType)
  | notArr

/-- `BaseSchemaParser.parseJsonOrJs` (`src/parsers/base-parser.ts`, lines
22-44), with the external text parser supplied as an oracle: `strict` is
the `JSON.parse` outcome (value, or the thrown error message),
`bracketShaped` tells whether the trimmed content starts with `[` and ends
with `]`, and `evalResult` is the array-literal `eval` outcome (`none`
when it throws).  Note that when the content is not bracket-shaped the
inner `new Error("Schema file format not recognized")` is thrown and then
immediately caught by the inner `catch`, so the surfaced message is always
the `Failed to parse schema file: <json message>` one. -/
def parseJsonOrJs (strict : Except String RawRoot) (bracketShaped : Bool)
    (evalResult : Option RawRoot) : Except String RawRoot :=
  match strict with
  | .ok v => .ok v
  | .error jsonMsg =>
    if bracketShaped then
      match evalResult with
      | some v => .ok v
      | none => .error ("Failed to parse schema file: " ++ jsonMsg)
    else
      .error ("Failed to parse schema file: " ++ jsonMsg)

/-! ## Modular `SchemaClubParser` (`src/parsers/schema-club-parser.ts`) -/

/-- `SchemaClubParser.parse` of the modular parser (lines 7-21): parse the
content, reject a non-array root, and use the array items as the type list
as-is (no per-field transformation). -/
def schemaClubParse (strict : Except String RawRoot) (bracketShaped : Bool)
    (evalResult : Option RawRoot) : Except String ParsedSchema :=
  match parseJsonOrJs strict bracketShaped evalResult with
  | .error e => .error e
  | .ok (.arr items) =>
    .ok (createParsedSchema items (fun t => t.type == "document"))
  | .ok .notArr => .error "Schema.club format expects an array of schema types"

/-! ## Monolithic `SchemaClubParser` (`generate-schema-graph.ts`) -/

/-- `SchemaClubParser.inferReferenceTarget` of the monolithic parser
(lines 178-196): build the pattern list [suffix-stripped name;
lower-cased whitespace-free title when the title is truthy; the name
itself; the name minus a trailing `s` when plural], drop falsy entries
(`null` and `""`), and return the first remaining pattern, or `null`. -/
def inferReferenceTarget (fieldName : String) (fieldTitle : Option String) :
    Option String :=
  let patterns : List (Option String) :=
    [ some (cleanSuffix fieldName),
      match fieldTitle with
      | some t => if t = "" then none else some (removeWhitespace (strLower t))
      | none => none,
      some fieldName,
      if strEndsWith fieldName "s" then some (strDropRight fieldName 1) else none ]
  ((patterns.filterMap id).filter (fun p => p ≠ "")).find? (fun p => 0 < p.length)

mutual

/-- `SchemaClubParser.transformSchemaClubField` of the monolithic parser
(lines 141-176): drop a field with a falsy name or type; copy
name/type/title; for a `reference` field ignore any raw `to` data and set
`to` from the eagerly inferred target (when one is found); for an `array`
field transform its item descriptors; transform nested `fields` whenever
present. -/
def transformSchemaClubField (f : SchemaField) : Option SchemaField :=
  match f with
  | .mk ftype fname ftitle ffields fofItems _ =>
    match fname with
    | none => none
    | some n =>
      if n = "" || ftype = "" then none
      else
        some (.mk ftype (some n) ftitle
          (match ffields with
           | some fl => some (transformSchemaClubFields fl)
           | none => none)
          (if ftype == "array" then
             match fofItems with
             | some ol => some (transformSchemaClubFields ol)
             | none => none
           else none)
          (if ftype == "reference" then
             (inferReferenceTarget n ftitle).map (fun tgt => [tgt])
           else none))

/-- `fields.map(transformSchemaClubField).filter(Boolean)` as one pass. -/
def transformSchemaClubFields (l : List SchemaField) : List SchemaField :=
  match l with
  | [] => []
  | f :: fs =>
    match transformSchemaClubField f with
    | some g => g :: transformSchemaClubFields fs
    | none => transformSchemaClubFields fs

end

/-- `SchemaClubParser.transformSchemaClubType` of the monolithic parser
(lines 124-139): keep name/type/title, transform the field list when
present; the type-level `of` list is not copied. -/
def transformSchemaClubType (item : SchemaType) : SchemaType :=
  { name := item.name
    type := item.type
    title := item.title
    fields := match item.fields with
              | some fl => some (transformSchemaClubFields fl)
              | none => none
    ofItems := none }

/-- `SchemaClubParser.parse` of the monolithic parser (lines 107-122):
parse, reject a non-array root, keep the entries having truthy `name` and
`type`, transform each, and build the registry. -/
def schemaClubParseMono (strict : Except String RawRoot) (bracketShaped : Bool)
    (evalResult : Option RawRoot) : Except String ParsedSchema :=
  match parseJsonOrJs strict bracketShaped evalResult with
  | .error e => .error e
  | .ok (.arr items) =>
    .ok (createParsedSchema
          ((items.filter (fun it => !(it.name = "") && !(it.type = ""))).map
            transformSchemaClubType)
          (fun t => t.type == "document"))
  | .ok .notArr => .error "Schema.club format expects an array of schema types"

/-! ## Modular `SanityParser` and the parser factory -/

/-- `SanityParser.parse` of the modular parser
(`src/parsers/sanity-parser.ts`, lines 6-12): unconditionally throws
before reading anything. -/
def sanityParserParse : Except String ParsedSchema :=
  .error "Sanity format parser not yet implemented. Coming soon!"

/-- `InputFormat` from `src/types.ts`. -/
inductive InputFormat where
  | schemaClub
  | sanity

/-- `createParser` dispatch (`src/parsers/index.ts`) composed with
`parse()`: the schema.club format runs the modular `SchemaClubParser`,
the sanity format runs the modular `SanityParser`. -/
def parseWithFormat (format : InputFormat) (strict : Except String RawRoot)
    (bracketShaped : Bool) (evalResult : Option RawRoot) :
    Except String ParsedSchema :=
  match format with
  | .schemaClub => schemaClubParse strict bracketShaped evalResult
  | .sanity => sanityParserParse

/-! ## Graph converter (`src/converter/graph-converter.ts`) -/

/-- The six `CONFIG.RELATIONSHIP_CONFIGS` style bundles by their tags. -/
inductive RelKind where
  | directReference
  | inferredReference
  | arrayReference
  | inferredArrayReference
  | objectComposition
  | arrayComposition
deriving DecidableEq

/-- One emitted graph edge: endpoints, the `xlabel` display label, the
relationship-kind style tag, and the source anchor (`source:port`) the
edge is drawn from. -/
structure Edge where
  source : String
  target : String
  label : String
  kind : RelKind
  anchor : String
deriving DecidableEq

/-- The dedup key computed in `createEdgeIfNotExists` (line 167):
`` `${source}->${target}:${label}` ``. -/
def edgeKey (source target label : String) : String :=
  source ++ "->" ++ target ++ ":" ++ label

def edgeKeyOf (e : Edge) : String := edgeKey e.source e.target e.label

/-- The converter object state: the schema handed to the constructor, the
`createdEdges` seen-key set, and the accumulated graph content (edges and
node identifiers) in emission order. -/
structure ConvState where
  schema : ParsedSchema
  createdEdges : List String
  edges : List Edge
  nodes : List String

/-- `GraphConverter` constructor (lines 12-16): store the schema, start
with an empty seen-edge set and an empty graph. -/
def newGraphConverter (schema : ParsedSchema) : ConvState :=
  { schema := schema, createdEdges := [], edges := [], nodes := [] }

/-- `GraphConverter.createEdgeIfNotExists` (lines 160-177): skip when the
concatenated key was seen, otherwise record the key and append the edge,
anchored at `source:port` (or `source:title` when no port is given). -/
def createEdgeIfNotExists (source target label : String) (kind : RelKind)
    (sourcePort : Option String) (st : ConvState) : ConvState :=
  let key := edgeKey source target label
  if st.createdEdges.contains key then st
  else
    { st with
      createdEdges := key :: st.createdEdges
      edges := st.edges ++
        [{ source := source, target := target, label := label, kind := kind,
           anchor := match sourcePort with
                     | some p => source ++ ":" ++ p
                     | none => source ++ ":title" }] }

/-- `GraphConverter.findPossibleReferenceTargets` (lines 291-325): push the
field name when it names a document/object type; push the lower-cased
title when the title is truthy and its lower-casing names a
document/object type; push the suffix-stripped name when it differs from
the name and names a document/object type.  No deduplication and no
whitespace handling happen here. -/
def findPossibleReferenceTargets (schema : ParsedSchema) (fieldName : String)
    (fieldTitle : Option String) : List String :=
  let t1 :=
    if schema.allTypeNames.contains fieldName then
      match schema.types.find? (fun t => t.name == fieldName) with
      | some s => if s.type == "document" || s.type == "object" then [fieldName] else []
      | none => []
    else []
  let t2 :=
    match fieldTitle with
    | some ft =>
      if ft = "" then []
      else if schema.allTypeNames.contains (strLower ft) then
        match schema.types.find? (fun t => t.name == strLower ft) with
        | some s => if s.type == "document" || s.type == "object" then [strLower ft] else []
        | none => []
      else []
    | none => []
  let t3 :=
    let cleanName := cleanSuffix fieldName
    if cleanName ≠ fieldName ∧ schema.allTypeNames.contains cleanName then
      match schema.types.find? (fun t => t.name == cleanName) with
      | some s => if s.type == "document" || s.type == "object" then [cleanName] else []
      | none => []
    else []
  t1 ++ t2 ++ t3

/-- The reference-handling statement shared by `processFieldForEdges`
(lines 184-250) and `processArrayItemForEdges` (lines 332-398); the four
occurrences differ exactly in the label and relationship-kind parameters
(`field`/`DIRECT_REFERENCE` and `field?`/`INFERRED_REFERENCE` at field
level; `field[]`/`ARRAY_REFERENCE` and `field[]?`/`INFERRED_ARRAY_REFERENCE`
inside arrays).  A `reference` descriptor with a non-empty explicit target
list attempts one edge per target that is in `allTypeNames` and whose
first registry entry is a document or object; otherwise one edge per
inference-heuristic hit is attempted. -/
def refResolveStep (sourceNodeId sourceFieldId directLabel : String)
    (directKind : RelKind) (inferLabel : String) (inferKind : RelKind)
    (f : SchemaField) (st : ConvState) : ConvState :=
  if f.type == "reference" then
    match f.toTargets with
    | some ts =>
      if 0 < ts.length then
        ts.foldl (fun s t =>
          if s.schema.allTypeNames.contains t then
            match s.schema.types.find? (fun ty => ty.name == t) with
            | some targetSchema =>
              if targetSchema.type == "document" || targetSchema.type == "object" then
                createEdgeIfNotExists sourceNodeId t directLabel directKind
                  (some (sourceFieldId ++ "_left:w")) s
              else s
            | none => s
          else s) st
      else
        (findPossibleReferenceTargets st.schema sourceFieldId f.title).foldl
          (fun s targetType =>
            createEdgeIfNotExists sourceNodeId targetType inferLabel inferKind
              (some (sourceFieldId ++ "_left:w")) s) st
    | none =>
      (findPossibleReferenceTargets st.schema sourceFieldId f.title).foldl
        (fun s targetType =>
          createEdgeIfNotExists sourceNodeId targetType inferLabel inferKind
            (some (sourceFieldId ++ "_left:w")) s) st
  else st

/-- The object-composition statement shared by `processFieldForEdges`
(lines 253-280, label = field name, `OBJECT_COMPOSITION`) and
`processArrayItemForEdges` (lines 401-427, label `field[]`,
`ARRAY_COMPOSITION`): an `object` descriptor with a truthy name attempts
one edge to the first type that carries the same name with object
category. -/
def objComposeStep (sourceNodeId label : String) (kind : RelKind)
    (portFieldId : String) (f : SchemaField) (st : ConvState) : ConvState :=
  if f.type == "object" then
    match f.name with
    | some n =>
      if n = "" then st
      else
        match st.schema.types.find? (fun t => t.name == n && t.type == "object") with
        | some objectType =>
          createEdgeIfNotExists sourceNodeId objectType.name label kind
            (some (portFieldId ++ "_left:w")) st
        | none => st
    | none => st
  else st

/-- `GraphConverter.processArrayItemForEdges` (lines 327-428): the
reference statement, then the object statement, with the array labels and
kinds. -/
def processArrayItemForEdges (sourceNodeId sourceFieldId : String)
    (itemType : SchemaField) (st : ConvState) : ConvState :=
  objComposeStep sourceNodeId (sourceFieldId ++ "[]") .arrayComposition sourceFieldId itemType
    (refResolveStep sourceNodeId sourceFieldId (sourceFieldId ++ "[]") .arrayReference
      (sourceFieldId ++ "[]?") .inferredArrayReference itemType st)

/-- The array statement of `processFieldForEdges` (lines 283-288): an
`array` field processes each of its item descriptors in order. -/
def fieldArrayStep (sourceNodeId sourceFieldId : String) (f : SchemaField)
    (st : ConvState) : ConvState :=
  if f.type == "array" then
    match f.ofItems with
    | some items =>
      items.foldl (fun s itemType =>
        processArrayItemForEdges sourceNodeId sourceFieldId itemType s) st
    | none => st
  else st

/-- `GraphConverter.processFieldForEdges` (lines 179-289): the reference
statement, then the object statement, then the array statement. -/
def processFieldForEdges (sourceNodeId sourceFieldId : String)
    (field : SchemaField) (st : ConvState) : ConvState :=
  fieldArrayStep sourceNodeId sourceFieldId field
    (objComposeStep sourceNodeId sourceFieldId .objectComposition sourceFieldId field
      (refResolveStep sourceNodeId sourceFieldId sourceFieldId .directReference
        (sourceFieldId ++ "?") .inferredReference field st))

/-- `GraphConverter.createEdges` (lines 149-158): walk the fields of the
source type, skipping fields with a falsy name. -/
def createEdges (sourceType : SchemaType) (st : ConvState) : ConvState :=
  match sourceType.fields with
  | none => st
  | some fs =>
    fs.foldl (fun s field =>
      match field.name with
      | some n => if n = "" then s else processFieldForEdges sourceType.name n field s
      | none => s) st

/-- `GraphConverter.createNode` (lines 72-147): register the node for the
type.  The HTML-like label (field rows, icons, colors) is pure rendering
computed from the same read-only schema and is not modelled. -/
def createNode (type : SchemaType) (st : ConvState) : ConvState :=
  { st with nodes := st.nodes ++ [type.name] }

/-- `GraphConverter.convert` (lines 52-70): first create one node per
document/object type, then create the edges for each document/object
type.  The final DOT serialization is outside the modelled core. -/
def convert (st : ConvState) : ConvState :=
  let st1 := st.schema.types.foldl
    (fun s ty => if ty.type == "document" || ty.type == "object" then createNode ty s else s) st
  st1.schema.types.foldl
    (fun s ty => if ty.type == "document" || ty.type == "object" then createEdges ty s else s) st1

/-- The edges of a full conversion run over a schema. -/
def convertEdges (schema : ParsedSchema) : List Edge :=
  (convert (newGraphConverter schema)).edges

/-! ## Candidate-edge stream

The converter attempts edges in a fixed traversal order (types, then
fields, then explicit targets / inferred targets / array items); the
functions below compute that attempted-candidate stream directly from the
schema, so that the deduplicating emission above can be related to it. -/

/-- The candidate edge attempted by `createEdgeIfNotExists source target
label kind (some port)`. -/
def mkCandidate (source target label : String) (kind : RelKind) (port : String) : Edge :=
  { source := source, target := target, label := label, kind := kind,
    anchor := source ++ ":" ++ port }

/-- Candidate produced for one explicit reference target: the guard of the
explicit-target branches (registry membership, then document/object
category of the first type carrying that name). -/
def explicitTargetSel (schema : ParsedSchema) (source label : String)
    (kind : RelKind) (port : String) (t : String) : Option Edge :=
  if schema.allTypeNames.contains t then
    match schema.types.find? (fun ty => ty.name == t) with
    | some targetSchema =>
      if targetSchema.type == "document" || targetSchema.type == "object" then
        some (mkCandidate source t label kind port)
      else none
    | none => none
  else none

/-- Candidates attempted by one `refResolveStep` occurrence. -/
def refCands (schema : ParsedSchema) (sourceNodeId sourceFieldId directLabel : String)
    (directKind : RelKind) (inferLabel : String) (inferKind : RelKind)
    (f : SchemaField) : List Edge :=
  if f.type == "reference" then
    match f.toTargets with
    | some ts =>
      if 0 < ts.length then
        ts.filterMap (explicitTargetSel schema sourceNodeId directLabel directKind
          (sourceFieldId ++ "_left:w"))
      else
        (findPossibleReferenceTargets schema sourceFieldId f.title).map
          (fun targetType => mkCandidate sourceNodeId targetType inferLabel inferKind
            (sourceFieldId ++ "_left:w"))
    | none =>
      (findPossibleReferenceTargets schema sourceFieldId f.title).map
        (fun targetType => mkCandidate sourceNodeId targetType inferLabel inferKind
          (sourceFieldId ++ "_left:w"))
  else []

/-- Candidate attempted by one `objComposeStep` occurrence. -/
def objCands (schema : ParsedSchema) (sourceNodeId label : String) (kind : RelKind)
    (portFieldId : String) (f : SchemaField) : List Edge :=
  if f.type == "object" then
    match f.name with
    | some n =>
      if n = "" then []
      else
        match schema.types.find? (fun t => t.name == n && t.type == "object") with
        | some objectType =>
          [mkCandidate sourceNodeId objectType.name label kind (portFieldId ++ "_left:w")]
        | none => []
    | none => []
  else []

/-- Candidates attempted for one array item descriptor. -/
def arrayItemCandidates (schema : ParsedSchema) (sourceNodeId sourceFieldId : String)
    (itemType : SchemaField) : List Edge :=
  refCands schema sourceNodeId sourceFieldId (sourceFieldId ++ "[]") .arrayReference
    (sourceFieldId ++ "[]?") .inferredArrayReference itemType
  ++ objCands schema sourceNodeId (sourceFieldId ++ "[]") .arrayComposition sourceFieldId itemType

/-- Candidates attempted by the array statement of a field. -/
def fieldArrayCands (schema : ParsedSchema) (sourceNodeId sourceFieldId : String)
    (f : SchemaField) : List Edge :=
  if f.type == "array" then
    match f.ofItems with
    | some items => items.flatMap (arrayItemCandidates schema sourceNodeId sourceFieldId)
    | none => []
  else []

/-- Candidates attempted for one named field. -/
def fieldCandidates (schema : ParsedSchema) (sourceNodeId sourceFieldId : String)
    (field : SchemaField) : List Edge :=
  refCands schema sourceNodeId sourceFieldId sourceFieldId .directReference
    (sourceFieldId ++ "?") .inferredReference field
  ++ objCands schema sourceNodeId sourceFieldId .objectComposition sourceFieldId field
  ++ fieldArrayCands schema sourceNodeId sourceFieldId field

/-- Candidates attempted while walking one type's fields. -/
def typeCandidates (schema : ParsedSchema) (sourceType : SchemaType) : List Edge :=
  match sourceType.fields with
  | none => []
  | some fs =>
    fs.flatMap (fun field =>
      match field.name with
      | some n => if n = "" then [] else fieldCandidates schema sourceType.name n field
      | none => [])

/-- The complete candidate stream of a conversion run, in type-then-field
iteration order. -/
def schemaCandidates (schema : ParsedSchema) : List Edge :=
  schema.types.flatMap (fun ty =>
    if ty.type == "document" || ty.type == "object" then typeCandidates schema ty else [])

/-- Attempt one candidate against the seen-key set. -/
def addCandidate (c : Edge) (st : ConvState) : ConvState :=
  if st.createdEdges.contains (edgeKeyOf c) then st
  else { st with createdEdges := edgeKeyOf c :: st.createdEdges, edges := st.edges ++ [c] }

/-- Attempt a list of candidates left to right. -/
def addCandidates (cs : List Edge) (st : ConvState) : ConvState :=
  cs.foldl (fun s c => addCandidate c s) st

/-- First-wins deduplication of a candidate stream by concatenated key,
given an initial seen-key set. -/
def keepFirsts (seen : List String) : List Edge → List Edge
  | [] => []
  | c :: cs =>
    if seen.contains (edgeKeyOf c) then keepFirsts seen cs
    else c :: keepFirsts (edgeKeyOf c :: seen) cs

/-! ## Definitions following the claim wording (for comparison) -/

/-- The validity check the claims describe for one candidate target name:
present in `allTypeNames` and of category document or object (the
category being read off the first type carrying that name, as
`types.find` does). -/
def typeNameIsGraphCategory (schema : ParsedSchema) (c : String) : Bool :=
  schema.allTypeNames.contains c &&
    (match schema.types.find? (fun t => t.name == c) with
     | some t => t.type == "document" || t.type == "object"
     | none => false)

/-- The inference heuristic exactly as the claim words it: an ordered,
deduplicated candidate list [field name; title lower-cased with
whitespace removed; suffix-stripped name when it differs], each candidate
independently validated. -/
def claimFindTargets (schema : ParsedSchema) (fieldName : String)
    (fieldTitle : Option String) : List String :=
  let candidates :=
    [fieldName]
    ++ (match fieldTitle with
        | some t => if t = "" then [] else [removeWhitespace (strLower t)]
        | none => [])
    ++ (if cleanSuffix fieldName ≠ fieldName then [cleanSuffix fieldName] else [])
  jsStringSet (candidates.filter (typeNameIsGraphCategory schema))

/-- The heuristic as amended: same ordered candidates and the same
independent validation, but the title is only lower-cased (whitespace is
kept) and the result list is not deduplicated. -/
def specFindTargetsAmended (schema : ParsedSchema) (fieldName : String)
    (fieldTitle : Option String) : List String :=
  ([fieldName]
   ++ (match fieldTitle with
       | some t => if t = "" then [] else [strLower t]
       | none => [])
   ++ (if cleanSuffix fieldName ≠ fieldName then [cleanSuffix fieldName] else []))
    |>.filter (typeNameIsGraphCategory schema)

/-- The monolithic eager inference as amended: the first non-empty of
[suffix-stripped name; lower-cased whitespace-free title when present;
the name itself; the name minus a trailing `s`], with no registry
validation at all. -/
def specEagerInfer (fieldName : String) (fieldTitle : Option String) : Option String :=
  if cleanSuffix fieldName ≠ "" then some (cleanSuffix fieldName)
  else
    match fieldTitle with
    | some t =>
      if t ≠ "" && removeWhitespace (strLower t) ≠ "" then
        some (removeWhitespace (strLower t))
      else if fieldName ≠ "" then some fieldName
      else if strEndsWith fieldName "s" && strDropRight fieldName 1 ≠ "" then
        some (strDropRight fieldName 1)
      else none
    | none =>
      if fieldName ≠ "" then some fieldName
      else if strEndsWith fieldName "s" && strDropRight fieldName 1 ≠ "" then
        some (strDropRight fieldName 1)
      else none

/-- The claim wording of the schema.club normalization outcome: success on
an array root (from strict parsing, or from the fallback when the strict
parse fails, the text is bracket-shaped and the literal evaluation
succeeds); `UnrecognizedFormat` exactly when a root was parsed but is not
an array; `ParseFailure` carrying the strict message exactly when strict
parsing fails and the fallback fails too. -/
def specSchemaClubNormalize (strict : Except String RawRoot) (bracketShaped : Bool)
    (evalResult : Option RawRoot) : Except String ParsedSchema :=
  let fallbackRoot : Option RawRoot := if bracketShaped then evalResult else none
  match strict with
  | .ok (.arr items) => .ok (createParsedSchema items (fun t => t.type == "document"))
  | .ok .notArr => .error "Schema.club format expects an array of schema types"
  | .error m =>
    match fallbackRoot with
    | some (.arr items) => .ok (createParsedSchema items (fun t => t.type == "document"))
    | some .notArr => .error "Schema.club format expects an array of schema types"
    | none => .error ("Failed to parse schema file: " ++ m)

/-! ## Concrete inputs used by counterexamples and witnesses -/

/-- A `reference` field named `categoryRef` with no explicit target. -/
def categoryRefRawField : SchemaField :=
  .mk "reference" (some "categoryRef") none none none none

/-- Raw `product` document type carrying only the `categoryRef` field. -/
def productRawType : SchemaType :=
  { name := "product", type := "document", title := some "Product",
    fields := some [categoryRefRawField], ofItems := none }

/-- Raw `category` document type with no fields. -/
def categoryRawType : SchemaType :=
  { name := "category", type := "document", title := some "Category",
    fields := none, ofItems := none }

/-- The raw root of the scenario: `product` then `category`. -/
def productCategoryRoot : RawRoot := .arr [productRawType, categoryRawType]

/-- Registry for the scenario fed directly to the converter. -/
def productCategorySchema : ParsedSchema :=
  createParsedSchema [productRawType, categoryRawType] (fun t => t.type == "document")

/-- Registry with one `category` document, used against the inference
heuristic. -/
def categoryOnlySchema : ParsedSchema :=
  createParsedSchema [categoryRawType] (fun t => t.type == "document")

/-- Registry with one `mytype` document: the name that the claimed
whitespace-removing title normalization would produce from `My Type`. -/
def mytypeSchema : ParsedSchema :=
  createParsedSchema
    [{ name := "mytype", type := "document", title := none, fields := none, ofItems := none }]
    (fun t => t.type == "document")

/-- Registry with two documents `tagRef` and `tag`, separating the
candidate orders of the two inference heuristics. -/
def tagRefSchema : ParsedSchema :=
  createParsedSchema
    [{ name := "tagRef", type := "document", title := none, fields := none, ofItems := none },
     { name := "tag", type := "document", title := none, fields := none, ofItems := none }]
    (fun t => t.type == "document")

/-- The empty registry. -/
def emptySchema : ParsedSchema := createParsedSchema [] (fun t => t.type == "document")

/-- Field named `c:d` with the explicit reference target `b`: its dedup
key is `a->b:c:d` when owned by type `a`. -/
def colonFieldCd : SchemaField :=
  .mk "reference" (some "c:d") none none none (some ["b"])

/-- Field named `d` listing the explicit reference target `b:c` twice: both
candidates carry the triple (`a`, `b:c`, `d`) and the same key `a->b:c:d`. -/
def colonFieldD : SchemaField :=
  .mk "reference" (some "d") none none none (some ["b:c", "b:c"])

/-- Schema whose candidate stream has two candidates sharing a triple whose
concatenated key collides with an earlier, differently-tripled candidate. -/
def collidingSchema : ParsedSchema :=
  createParsedSchema
    [{ name := "a", type := "document", title := none,
       fields := some [colonFieldCd, colonFieldD], ofItems := none },
     { name := "b", type := "document", title := none, fields := none, ofItems := none },
     { name := "b:c", type := "document", title := none, fields := none, ofItems := none }]
    (fun t => t.type == "document")

/-- A reference field whose only explicit target `ghost` is not in the
registry. -/
def ghostRefField : SchemaField :=
  .mk "reference" (some "ghostRef") none none none (some ["ghost"])

/-- A nameless reference field with a valid explicit target. -/
def namelessRefField : SchemaField :=
  .mk "reference" none none none none (some ["category"])

/-- A plain named string field. -/
def firstNameField : SchemaField := .mk "string" (some "first") none none none none

/-- A plain named string field. -/
def lastNameField : SchemaField := .mk "string" (some "last") none none none none

/-- A type with a nameless reference field between two named string fields. -/
def namelessFieldType : SchemaType :=
  { name := "owner", type := "document", title := none,
    fields := some [firstNameField, namelessRefField, lastNameField],
    ofItems := none }

/-- The single inferred edge of the `product`/`category` scenario. -/
def categoryRefInferredEdge : Edge :=
  { source := "product", target := "category", label := "categoryRef?",
    kind := RelKind.inferredReference, anchor := "product:categoryRef_left:w" }

/-- The single eager-inference direct edge of the `product`/`category`
scenario when it is normalized by the monolithic parser. -/
def categoryRefDirectEdge : Edge :=
  { source := "product", target := "category", label := "categoryRef",
    kind := RelKind.directReference, anchor := "product:categoryRef_left:w" }

/-- Two raw types sharing the name `a` with different categories. -/
def duplicateNamesRoot : RawRoot :=
  .arr [{ name := "a", type := "document", title := none, fields := none, ofItems := none },
        { name := "a", type := "object", title := none, fields := none, ofItems := none }]

/-- Some type in the registry carries this name with a graph category. -/
def existsGraphType (schema : ParsedSchema) (t : String) : Prop :=
  ∃ ty ∈ schema.types, ty.name = t ∧ (ty.type = "document" ∨ ty.type = "object")

/-! ## Basic state lemmas -/

theorem addCandidate_schema (c : Edge) (st : ConvState) :
    (addCandidate c st).schema = st.schema := by
  unfold addCandidate; split <;> rfl

theorem addCandidate_of_contains (c : Edge) (st : ConvState)
    (h : st.createdEdges.contains (edgeKeyOf c) = true) :
    addCandidate c st = st := by
  unfold addCandidate
  exact if_pos h

theorem addCandidate_of_not_contains (c : Edge) (st : ConvState)
    (h : st.createdEdges.contains (edgeKeyOf c) = false) :
    addCandidate c st
      = { st with createdEdges := edgeKeyOf c :: st.createdEdges,
                  edges := st.edges ++ [c] } := by
  unfold addCandidate
  exact if_neg (by rw [h]; exact fun hc => Bool.noConfusion hc)

theorem addCandidates_append (l₁ l₂ : List Edge) (st : ConvState) :
    addCandidates (l₁ ++ l₂) st = addCandidates l₂ (addCandidates l₁ st) := by
  unfold addCandidates; exact List.foldl_append _ _ _ _

theorem addCandidates_schema (cs : List Edge) (st : ConvState) :
    (addCandidates cs st).schema = st.schema := by
  induction cs generalizing st with
  | nil => rfl
  | cons c cs ih =>
    show (addCandidates cs (addCandidate c st)).schema = st.schema
    rw [ih, addCandidate_schema]

theorem addCandidates_nil (st : ConvState) : addCandidates [] st = st := rfl

theorem createEdgeIfNotExists_eq (source target label : String) (kind : RelKind)
    (port : String) (st : ConvState) :
    createEdgeIfNotExists source target label kind (some port) st
      = addCandidate (mkCandidate source target label kind port) st := rfl

/-! ## First-wins deduplication theory -/

theorem keepFirsts_subset {seen : List String} {cs : List Edge} {e : Edge}
    (h : e ∈ keepFirsts seen cs) : e ∈ cs := by
  induction cs generalizing seen with
  | nil => exact absurd h (List.not_mem_nil e)
  | cons c cs ih =>
    unfold keepFirsts at h
    split at h
    · exact List.mem_cons_of_mem _ (ih h)
    · rcases List.mem_cons.mp h with h' | h'
      · exact h' ▸ List.mem_cons_self _ _
      · exact List.mem_cons_of_mem _ (ih h')

theorem keepFirsts_not_seen {seen : List String} {cs : List Edge} {e : Edge}
    (h : e ∈ keepFirsts seen cs) : seen.contains (edgeKeyOf e) = false := by
  induction cs generalizing seen with
  | nil => exact absurd h (List.not_mem_nil e)
  | cons c cs ih =>
    unfold keepFirsts at h
    split at h
    · exact ih h
    · rename_i hc
      rcases List.mem_cons.mp h with h' | h'
      · subst h'
        simpa using hc
      · have h2 := ih h'
        simp only [List.contains_cons, Bool.or_eq_false_iff] at h2
        exact h2.2

theorem keepFirsts_pairwise (seen : List String) (cs : List Edge) :
    (keepFirsts seen cs).Pairwise (fun a b => edgeKeyOf a ≠ edgeKeyOf b) := by
  induction cs generalizing seen with
  | nil => exact List.Pairwise.nil
  | cons c cs ih =>
    unfold keepFirsts
    split
    · exact ih seen
    · refine List.Pairwise.cons ?_ (ih _)
      intro e he heq
      have hns := keepFirsts_not_seen he
      simp only [List.contains_cons, Bool.or_eq_false_iff, beq_eq_false_iff_ne, ne_eq] at hns
      exact hns.1 heq.symm

theorem keepFirsts_find {seen : List String} {cs : List Edge} {e : Edge}
    (h : e ∈ keepFirsts seen cs) :
    cs.find? (fun c => edgeKeyOf c == edgeKeyOf e) = some e := by
  induction cs generalizing seen with
  | nil => exact absurd h (List.not_mem_nil e)
  | cons c cs ih =>
    unfold keepFirsts at h
    split at h
    · rename_i hcseen
      have hkeyne : edgeKeyOf c ≠ edgeKeyOf e := by
        intro hk
        have h1 := keepFirsts_not_seen h
        rw [← hk, hcseen] at h1
        exact Bool.noConfusion h1
      rw [List.find?_cons_of_neg _ (by simpa using hkeyne)]
      exact ih h
    · rcases List.mem_cons.mp h with h' | h'
      · subst h'
        exact List.find?_cons_of_pos _ (by simp)
      · have hns := keepFirsts_not_seen h'
        simp only [List.contains_cons, Bool.or_eq_false_iff, beq_eq_false_iff_ne, ne_eq] at hns
        have hkeyne : edgeKeyOf c ≠ edgeKeyOf e := fun hh => hns.1 hh.symm
        rw [List.find?_cons_of_neg _ (by simpa using hkeyne)]
        exact ih h'

theorem keepFirsts_complete {seen : List String} {cs : List Edge} {c : Edge}
    (h : c ∈ cs) :
    seen.contains (edgeKeyOf c) = true ∨
      ∃ e ∈ keepFirsts seen cs, edgeKeyOf e = edgeKeyOf c := by
  induction cs generalizing seen with
  | nil => exact absurd h (List.not_mem_nil c)
  | cons d cs ih =>
    unfold keepFirsts
    rcases List.mem_cons.mp h with h' | h'
    · subst h'
      cases hseen : seen.contains (edgeKeyOf c) with
      | true => exact Or.inl rfl
      | false =>
        refine Or.inr ⟨c, ?_, rfl⟩
        rw [if_neg (fun hc => Bool.noConfusion hc)]
        exact List.mem_cons_self _ _
    · cases hseen : seen.contains (edgeKeyOf d) with
      | true =>
        rw [if_pos rfl]
        exact ih h'
      | false =>
        rw [if_neg (fun hc => Bool.noConfusion hc)]
        rcases @ih (edgeKeyOf d :: seen) h' with hin | ⟨e, he, heq⟩
        · simp only [List.contains_cons] at hin
          rcases Bool.or_eq_true_iff.mp hin with hd | hs
          · exact Or.inr ⟨d, List.mem_cons_self _ _,
              (by simpa using hd : edgeKeyOf c = edgeKeyOf d).symm⟩
          · exact Or.inl hs
        · exact Or.inr ⟨e, List.mem_cons_of_mem _ he, heq⟩

theorem addCandidates_edges (cs : List Edge) (st : ConvState) :
    (addCandidates cs st).edges = st.edges ++ keepFirsts st.createdEdges cs := by
  induction cs generalizing st with
  | nil => simp [addCandidates, keepFirsts]
  | cons c cs ih =>
    show (addCandidates cs (addCandidate c st)).edges = _
    unfold keepFirsts
    cases h : st.createdEdges.contains (edgeKeyOf c) with
    | true =>
      rw [addCandidate_of_contains c st h, ih st, if_pos rfl]
    | false =>
      rw [addCandidate_of_not_contains c st h, ih,
        if_neg (fun hc => Bool.noConfusion hc)]
      simp

/-! ## Stateful emission equals candidate-stream emission -/

theorem foldl_sel_eq {α : Type} (sel : ParsedSchema → α → Option Edge)
    (ts : List α) (st : ConvState) :
    ts.foldl (fun s t =>
        match sel s.schema t with
        | some e => addCandidate e s
        | none => s) st
      = addCandidates (ts.filterMap (fun t => sel st.schema t)) st := by
  induction ts generalizing st with
  | nil => rfl
  | cons t ts ih =>
    rw [List.foldl_cons, List.filterMap_cons]
    cases h : sel st.schema t with
    | none =>
      simp only [h]
      exact ih st
    | some e =>
      simp only [h]
      have h2 := ih (addCandidate e st)
      simp only [addCandidate_schema] at h2
      exact h2

theorem foldl_addCandidate_map {α : Type} (g : α → Edge) (l : List α) (st : ConvState) :
    l.foldl (fun s x => addCandidate (g x) s) st = addCandidates (l.map g) st := by
  unfold addCandidates
  rw [List.foldl_map]

theorem foldl_flat_eq {α : Type} (g : ParsedSchema → α → List Edge)
    (step : ConvState → α → ConvState)
    (hstep : ∀ s a, step s a = addCandidates (g s.schema a) s)
    (l : List α) (st : ConvState) :
    l.foldl step st = addCandidates (l.flatMap (fun a => g st.schema a)) st := by
  induction l generalizing st with
  | nil => rfl
  | cons a l ih =>
    rw [List.foldl_cons, hstep, ih, List.flatMap_cons, addCandidates_append]
    simp only [addCandidates_schema]

theorem explicitBody_eq (sourceNodeId sourceFieldId directLabel : String)
    (directKind : RelKind) (s : ConvState) (t : String) :
    (if s.schema.allTypeNames.contains t then
       match s.schema.types.find? (fun ty => ty.name == t) with
       | some targetSchema =>
         if targetSchema.type == "document" || targetSchema.type == "object" then
           createEdgeIfNotExists sourceNodeId t directLabel directKind
             (some (sourceFieldId ++ "_left:w")) s
         else s
       | none => s
     else s)
      = match explicitTargetSel s.schema sourceNodeId directLabel directKind
          (sourceFieldId ++ "_left:w") t with
        | some e => addCandidate e s
        | none => s := by
  unfold explicitTargetSel
  split
  · split
    · split
      · exact createEdgeIfNotExists_eq _ _ _ _ _ _
      · rfl
    · rfl
  · rfl

theorem refStep_eq (sourceNodeId sourceFieldId directLabel : String)
    (directKind : RelKind) (inferLabel : String) (inferKind : RelKind)
    (f : SchemaField) (st : ConvState) :
    refResolveStep sourceNodeId sourceFieldId directLabel directKind inferLabel inferKind f st
      = addCandidates
          (refCands st.schema sourceNodeId sourceFieldId directLabel directKind
            inferLabel inferKind f) st := by
  unfold refResolveStep refCands
  split
  · split
    · split
      · exact (List.foldl_ext _ _ st
          (fun s tt _ => explicitBody_eq sourceNodeId sourceFieldId directLabel directKind s tt)).trans
          (foldl_sel_eq (fun schema t => explicitTargetSel schema sourceNodeId directLabel
            directKind (sourceFieldId ++ "_left:w") t) _ st)
      · exact (List.foldl_ext _ _ st
          (fun s tt _ => createEdgeIfNotExists_eq sourceNodeId tt inferLabel inferKind
            (sourceFieldId ++ "_left:w") s)).trans
          (foldl_addCandidate_map _ _ st)
    · exact (List.foldl_ext _ _ st
        (fun s tt _ => createEdgeIfNotExists_eq sourceNodeId tt inferLabel inferKind
          (sourceFieldId ++ "_left:w") s)).trans
        (foldl_addCandidate_map _ _ st)
  · rfl

theorem objStep_eq (sourceNodeId label : String) (kind : RelKind)
    (portFieldId : String) (f : SchemaField) (st : ConvState) :
    objComposeStep sourceNodeId label kind portFieldId f st
      = addCandidates (objCands st.schema sourceNodeId label kind portFieldId f) st := by
  unfold objComposeStep objCands
  split
  · split
    · split
      · rfl
      · split
        · exact createEdgeIfNotExists_eq _ _ _ _ _ _
        · rfl
    · rfl
  · rfl

theorem processArrayItemForEdges_eq (sourceNodeId sourceFieldId : String)
    (itemType : SchemaField) (st : ConvState) :
    processArrayItemForEdges sourceNodeId sourceFieldId itemType st
      = addCandidates (arrayItemCandidates st.schema sourceNodeId sourceFieldId itemType) st := by
  unfold processArrayItemForEdges arrayItemCandidates
  rw [refStep_eq, objStep_eq]
  simp only [addCandidates_schema]
  rw [← addCandidates_append]

theorem fieldArrayStep_eq (sourceNodeId sourceFieldId : String) (f : SchemaField)
    (st : ConvState) :
    fieldArrayStep sourceNodeId sourceFieldId f st
      = addCandidates (fieldArrayCands st.schema sourceNodeId sourceFieldId f) st := by
  unfold fieldArrayStep fieldArrayCands
  split
  · split
    · exact foldl_flat_eq
        (fun schema it => arrayItemCandidates schema sourceNodeId sourceFieldId it) _
        (fun s a => processArrayItemForEdges_eq sourceNodeId sourceFieldId a s) _ st
    · rfl
  · rfl

theorem processFieldForEdges_eq (sourceNodeId sourceFieldId : String)
    (field : SchemaField) (st : ConvState) :
    processFieldForEdges sourceNodeId sourceFieldId field st
      = addCandidates (fieldCandidates st.schema sourceNodeId sourceFieldId field) st := by
  unfold processFieldForEdges fieldCandidates
  rw [refStep_eq, objStep_eq, fieldArrayStep_eq]
  simp only [addCandidates_schema]
  rw [← addCandidates_append, ← addCandidates_append, List.append_assoc]

theorem createEdges_eq (sourceType : SchemaType) (st : ConvState) :
    createEdges sourceType st
      = addCandidates (typeCandidates st.schema sourceType) st := by
  unfold createEdges typeCandidates
  split
  · rfl
  · refine (foldl_flat_eq
      (fun (schema : ParsedSchema) (field : SchemaField) =>
        match field.name with
        | some n => if n = "" then [] else fieldCandidates schema sourceType.name n field
        | none => [])
      _ ?_ _ st)
    intro s f
    dsimp only
    cases hn : f.name with
    | none => rfl
    | some n =>
      dsimp only
      by_cases hne : n = ""
      · rw [if_pos hne, if_pos hne]
        rfl
      · rw [if_neg hne, if_neg hne]
        exact processFieldForEdges_eq sourceType.name n f s

/-! ## Whole-run characterization -/

theorem nodeFold_parts (l : List SchemaType) (st : ConvState) :
    (l.foldl (fun s ty =>
        if ty.type == "document" || ty.type == "object" then createNode ty s else s) st).schema
        = st.schema
    ∧ (l.foldl (fun s ty =>
        if ty.type == "document" || ty.type == "object" then createNode ty s else s) st).createdEdges
        = st.createdEdges
    ∧ (l.foldl (fun s ty =>
        if ty.type == "document" || ty.type == "object" then createNode ty s else s) st).edges
        = st.edges := by
  induction l generalizing st with
  | nil => exact ⟨rfl, rfl, rfl⟩
  | cons ty l ih =>
    rw [List.foldl_cons]
    split
    · exact ih (createNode ty st)
    · exact ih st

theorem edgeFold_eq (l : List SchemaType) (st : ConvState) :
    l.foldl (fun s ty =>
        if ty.type == "document" || ty.type == "object" then createEdges ty s else s) st
      = addCandidates (l.flatMap (fun ty =>
          if ty.type == "document" || ty.type == "object"
          then typeCandidates st.schema ty else [])) st := by
  refine foldl_flat_eq
    (fun (schema : ParsedSchema) (ty : SchemaType) =>
      if ty.type == "document" || ty.type == "object" then typeCandidates schema ty else [])
    _ ?_ l st
  intro s ty
  dsimp only
  split
  · exact createEdges_eq ty s
  · rfl

theorem convert_edges_char (st : ConvState) :
    (convert st).edges
      = st.edges ++ keepFirsts st.createdEdges (schemaCandidates st.schema) := by
  show ((fun (st1 : ConvState) => st1.schema.types.foldl
      (fun (s : ConvState) (ty : SchemaType) =>
        if ty.type == "document" || ty.type == "object" then createEdges ty s else s) st1)
    (st.schema.types.foldl
      (fun (s : ConvState) (ty : SchemaType) =>
        if ty.type == "document" || ty.type == "object" then createNode ty s else s) st)).edges
    = _
  dsimp only
  have hn := nodeFold_parts st.schema.types st
  rw [hn.1, edgeFold_eq, addCandidates_edges, hn.1, hn.2.1, hn.2.2]
  rfl

theorem convert_schema_eq (st : ConvState) : (convert st).schema = st.schema := by
  show ((fun (st1 : ConvState) => st1.schema.types.foldl
      (fun (s : ConvState) (ty : SchemaType) =>
        if ty.type == "document" || ty.type == "object" then createEdges ty s else s) st1)
    (st.schema.types.foldl
      (fun (s : ConvState) (ty : SchemaType) =>
        if ty.type == "document" || ty.type == "object" then createNode ty s else s) st)).schema
    = _
  dsimp only
  have hn := nodeFold_parts st.schema.types st
  rw [hn.1, edgeFold_eq, addCandidates_schema, hn.1]

theorem convertEdges_eq_keepFirsts (schema : ParsedSchema) :
    convertEdges schema = keepFirsts [] (schemaCandidates schema) := by
  unfold convertEdges
  rw [convert_edges_char]
  rfl

/-! ## Where edges can point -/

theorem explicitTargetSel_some_target {schema : ParsedSchema}
    {src lbl : String} {k : RelKind} {p t : String} {e : Edge}
    (h : explicitTargetSel schema src lbl k p t = some e) :
    existsGraphType schema e.target := by
  unfold explicitTargetSel at h
  split at h
  · split at h
    · rename_i targetSchema hf
      split at h
      · rename_i hcat
        cases h
        refine ⟨targetSchema, List.mem_of_find?_eq_some hf, ?_, ?_⟩
        · have := List.find?_some hf
          simpa using this
        · simpa using hcat
      · exact absurd h (by simp)
    · exact absurd h (by simp)
  · exact absurd h (by simp)

theorem mem_catSingleton {schema : ParsedSchema} {cand t : String}
    (h : t ∈ (match schema.types.find? (fun ty => ty.name == cand) with
              | some s => if s.type == "document" || s.type == "object" then [cand] else []
              | none => ([] : List String))) :
    existsGraphType schema t := by
  split at h
  · rename_i s hf
    split at h
    · rename_i hcat
      rcases List.mem_singleton.mp h with rfl
      exact ⟨s, List.mem_of_find?_eq_some hf, by simpa using List.find?_some hf,
        by simpa using hcat⟩
    · exact absurd h (List.not_mem_nil t)
  · exact absurd h (List.not_mem_nil t)

theorem fpt_mem_target {schema : ParsedSchema} {n : String} {ti : Option String}
    {t : String} (h : t ∈ findPossibleReferenceTargets schema n ti) :
    existsGraphType schema t := by
  unfold findPossibleReferenceTargets at h
  dsimp only at h
  rcases List.mem_append.mp h with h12 | h3
  · rcases List.mem_append.mp h12 with h1 | h2
    · split at h1
      · exact mem_catSingleton h1
      · exact absurd h1 (List.not_mem_nil t)
    · split at h2
      · split at h2
        · exact absurd h2 (List.not_mem_nil t)
        · split at h2
          · exact mem_catSingleton h2
          · exact absurd h2 (List.not_mem_nil t)
      · exact absurd h2 (List.not_mem_nil t)
  · split at h3
    · exact mem_catSingleton h3
    · exact absurd h3 (List.not_mem_nil t)

theorem mem_refCands_target {schema : ParsedSchema}
    {src fid dl : String} {dk : RelKind} {il : String} {ik : RelKind}
    {f : SchemaField} {e : Edge}
    (h : e ∈ refCands schema src fid dl dk il ik f) :
    existsGraphType schema e.target := by
  unfold refCands at h
  split at h
  · split at h
    · split at h
      · rcases List.mem_filterMap.mp h with ⟨t, _, hsel⟩
        exact explicitTargetSel_some_target hsel
      · rcases List.mem_map.mp h with ⟨tt, htt, rfl⟩
        exact fpt_mem_target htt
    · rcases List.mem_map.mp h with ⟨tt, htt, rfl⟩
      exact fpt_mem_target htt
  · exact absurd h (List.not_mem_nil e)

theorem mem_objCands_target {schema : ParsedSchema}
    {src lbl : String} {k : RelKind} {pf : String}
    {f : SchemaField} {e : Edge}
    (h : e ∈ objCands schema src lbl k pf f) :
    existsGraphType schema e.target := by
  unfold objCands at h
  split at h
  · split at h
    · split at h
      · exact absurd h (List.not_mem_nil e)
      · split at h
        · rename_i objectType hf
          rcases List.mem_singleton.mp h with rfl
          have hp := List.find?_some hf
          simp only [Bool.and_eq_true, beq_iff_eq] at hp
          exact ⟨objectType, List.mem_of_find?_eq_some hf, rfl, Or.inr hp.2⟩
        · exact absurd h (List.not_mem_nil e)
    · exact absurd h (List.not_mem_nil e)
  · exact absurd h (List.not_mem_nil e)

theorem mem_arrayItemCandidates_target {schema : ParsedSchema}
    {src fid : String} {item : SchemaField} {e : Edge}
    (h : e ∈ arrayItemCandidates schema src fid item) :
    existsGraphType schema e.target := by
  rcases List.mem_append.mp h with h' | h'
  · exact mem_refCands_target h'
  · exact mem_objCands_target h'

theorem mem_fieldCandidates_target {schema : ParsedSchema}
    {src fid : String} {field : SchemaField} {e : Edge}
    (h : e ∈ fieldCandidates schema src fid field) :
    existsGraphType schema e.target := by
  rcases List.mem_append.mp h with h12 | h3
  · rcases List.mem_append.mp h12 with h1 | h2
    · exact mem_refCands_target h1
    · exact mem_objCands_target h2
  · unfold fieldArrayCands at h3
    split at h3
    · split at h3
      · rcases List.mem_flatMap.mp h3 with ⟨item, _, hitem⟩
        exact mem_arrayItemCandidates_target hitem
      · exact absurd h3 (List.not_mem_nil e)
    · exact absurd h3 (List.not_mem_nil e)

/-! ## When a reference descriptor yields nothing -/

theorem explicitTargetSel_none_of_invalid {schema : ParsedSchema} {t : String}
    (h : typeNameIsGraphCategory schema t = false)
    (src lbl : String) (k : RelKind) (p : String) :
    explicitTargetSel schema src lbl k p t = none := by
  unfold typeNameIsGraphCategory at h
  unfold explicitTargetSel
  split
  · rename_i hc
    rw [hc, Bool.true_and] at h
    split at h
    · rw [if_neg (by rw [h]; exact fun hcontra => Bool.noConfusion hcontra)]
    · rfl
  · rfl

theorem refCands_nil_of_invalid {schema : ParsedSchema}
    {src fid dl : String} {dk : RelKind} {il : String} {ik : RelKind}
    {f : SchemaField} {ts : List String}
    (hr : f.type = "reference") (hts : f.toTargets = some ts) (hlen : 0 < ts.length)
    (hinv : ∀ t ∈ ts, typeNameIsGraphCategory schema t = false) :
    refCands schema src fid dl dk il ik f = [] := by
  unfold refCands
  rw [hts, if_pos (show (f.type == "reference") = true by rw [hr]; rfl)]
  dsimp only
  rw [if_pos hlen]
  exact List.filterMap_eq_nil_iff.mpr
    (fun t ht => explicitTargetSel_none_of_invalid (hinv t ht) src dl dk (fid ++ "_left:w"))

theorem refCands_nil_of_no_inference {schema : ParsedSchema}
    {src fid dl : String} {dk : RelKind} {il : String} {ik : RelKind}
    {f : SchemaField}
    (hr : f.type = "reference")
    (hts : f.toTargets = none ∨ f.toTargets = some [])
    (hfpt : findPossibleReferenceTargets schema fid f.title = []) :
    refCands schema src fid dl dk il ik f = [] := by
  unfold refCands
  rw [if_pos (show (f.type == "reference") = true by rw [hr]; rfl)]
  rcases hts with hts | hts
  · rw [hts]
    dsimp only
    rw [hfpt]
    rfl
  · rw [hts]
    dsimp only
    rw [if_neg (by simp), hfpt]
    rfl

theorem objCands_nil_of_type {schema : ParsedSchema}
    {src lbl : String} {k : RelKind} {pf : String} {f : SchemaField}
    (h : (f.type == "object") = false) :
    objCands schema src lbl k pf f = [] := by
  unfold objCands
  rw [if_neg (by rw [h]; exact fun hc => Bool.noConfusion hc)]

theorem fieldArrayCands_nil_of_type {schema : ParsedSchema}
    {src fid : String} {f : SchemaField}
    (h : (f.type == "array") = false) :
    fieldArrayCands schema src fid f = [] := by
  unfold fieldArrayCands
  rw [if_neg (by rw [h]; exact fun hc => Bool.noConfusion hc)]

/-! ## The inference heuristic as a filtered candidate list -/

theorem catMatch_eq_filter (schema : ParsedSchema) (cand : String)
    (hc : schema.allTypeNames.contains cand = true) :
    (match schema.types.find? (fun ty => ty.name == cand) with
     | some s => if s.type == "document" || s.type == "object" then [cand] else []
     | none => ([] : List String))
    = [cand].filter (typeNameIsGraphCategory schema) := by
  unfold typeNameIsGraphCategory
  simp only [List.filter_cons, List.filter_nil]
  rw [hc, Bool.true_and]
  cases hf : schema.types.find? (fun ty => ty.name == cand) with
  | none => rfl
  | some s => rfl

theorem checkedSingleton_eq_filter (schema : ParsedSchema) (cand : String) :
    (if schema.allTypeNames.contains cand then
       match schema.types.find? (fun ty => ty.name == cand) with
       | some s => if s.type == "document" || s.type == "object" then [cand] else []
       | none => ([] : List String)
     else [])
    = [cand].filter (typeNameIsGraphCategory schema) := by
  cases hc : schema.allTypeNames.contains cand with
  | true =>
    rw [if_pos rfl]
    exact catMatch_eq_filter schema cand hc
  | false =>
    rw [if_neg (fun hcontra => Bool.noConfusion hcontra)]
    unfold typeNameIsGraphCategory
    simp only [List.filter_cons, List.filter_nil]
    rw [hc, Bool.false_and]
    rfl

theorem fpt_eq_specAmended (schema : ParsedSchema) (fieldName : String)
    (fieldTitle : Option String) :
    findPossibleReferenceTargets schema fieldName fieldTitle
      = specFindTargetsAmended schema fieldName fieldTitle := by
  unfold findPossibleReferenceTargets specFindTargetsAmended
  dsimp only
  rw [List.filter_append, List.filter_append]
  refine congrArg₂ _ (congrArg₂ _ ?_ ?_) ?_
  · exact checkedSingleton_eq_filter schema fieldName
  · cases fieldTitle with
    | none => rfl
    | some ft =>
      dsimp only
      by_cases hft : ft = ""
      · rw [if_pos hft, if_pos hft]
        rfl
      · rw [if_neg hft, if_neg hft]
        exact checkedSingleton_eq_filter schema (strLower ft)
  · by_cases hne : cleanSuffix fieldName ≠ fieldName
    · rw [if_pos hne]
      cases hc : schema.allTypeNames.contains (cleanSuffix fieldName) with
      | true =>
        rw [if_pos ⟨hne, rfl⟩]
        exact catMatch_eq_filter schema (cleanSuffix fieldName) hc
      | false =>
        rw [if_neg (fun hand => Bool.noConfusion hand.2)]
        unfold typeNameIsGraphCategory
        simp only [List.filter_cons, List.filter_nil]
        rw [hc, Bool.false_and]
        rfl
    · rw [if_neg hne, if_neg (fun hand => hne hand.1)]
      rfl

/-! ## The eager inference as a first-non-empty chain -/

theorem strLengthPos (s : String) : 0 < s.length ↔ s ≠ "" := by
  cases s with
  | mk data =>
    cases data with
    | nil => simp [String.length]
    | cons c cs =>
      simp only [String.length]
      constructor
      · intro _ hcontra
        have : (String.mk (c :: cs)).data = ("" : String).data := by rw [hcontra]
        simp at this
      · intro _
        simp

theorem find?_all_true {α : Type} (p : α → Bool) (m : List α)
    (h : ∀ x ∈ m, p x = true) : m.find? p = m.head? := by
  cases m with
  | nil => rfl
  | cons a m =>
    rw [List.find?_cons_of_pos _ (h a (List.mem_cons_self _ _))]
    rfl

theorem infer_find_eq_head (l : List String) :
    ((l.filter (fun p => p ≠ "")).find? (fun p => 0 < p.length))
      = (l.filter (fun p => p ≠ "")).head? := by
  refine find?_all_true _ _ ?_
  intro x hx
  have hne : x ≠ "" := by
    have := (List.mem_filter.mp hx).2
    simpa using this
  exact decide_eq_true ((strLengthPos x).mpr hne)

theorem infer_eq_specEagerInfer (fieldName : String) (fieldTitle : Option String) :
    inferReferenceTarget fieldName fieldTitle = specEagerInfer fieldName fieldTitle := by
  unfold inferReferenceTarget specEagerInfer
  dsimp only
  rw [infer_find_eq_head]
  by_cases h1 : cleanSuffix fieldName = ""
  case neg =>
    cases fieldTitle <;> simp [h1]
  case pos =>
    cases fieldTitle with
    | none =>
      by_cases h3 : fieldName = ""
      · subst h3
        decide
      · simp [h1, h3]
    | some t =>
      dsimp only
      by_cases ht : t = ""
      · subst ht
        by_cases h3 : fieldName = ""
        · subst h3
          decide
        · simp [h1, h3]
      · by_cases h2 : removeWhitespace (strLower t) = ""
        · by_cases h3 : fieldName = ""
          · subst h3
            simp [h1, h2, ht]
            decide
          · simp [h1, h2, h3, ht]
        · simp [h1, h2, ht]

/-! ## Registry construction facts -/

theorem mem_jsStringSet {x : String} {l : List String} :
    x ∈ jsStringSet l ↔ x ∈ l := by
  have main : ∀ (l acc : List String),
      x ∈ l.foldl (fun acc y => if acc.contains y then acc else acc ++ [y]) acc
        ↔ x ∈ acc ∨ x ∈ l := by
    intro l
    induction l with
    | nil => intro acc; simp
    | cons y l ih =>
      intro acc
      rw [List.foldl_cons]
      cases hc : acc.contains y with
      | true =>
        rw [if_pos rfl]
        rw [ih acc]
        constructor
        · rintro (h | h)
          · exact Or.inl h
          · exact Or.inr (List.mem_cons_of_mem _ h)
        · rintro (h | h)
          · exact Or.inl h
          · rcases List.mem_cons.mp h with rfl | h
            · exact Or.inl (by simpa using hc : x ∈ acc)
            · exact Or.inr h
      | false =>
        rw [if_neg (fun hcontra => Bool.noConfusion hcontra)]
        rw [ih (acc ++ [y])]
        constructor
        · rintro (h | h)
          · rcases List.mem_append.mp h with h | h
            · exact Or.inl h
            · exact Or.inr (List.mem_cons.mpr (Or.inl (List.mem_singleton.mp h)))
          · exact Or.inr (List.mem_cons_of_mem _ h)
        · rintro (h | h)
          · exact Or.inl (List.mem_append.mpr (Or.inl h))
          · rcases List.mem_cons.mp h with rfl | h
            · exact Or.inl (List.mem_append.mpr (Or.inr (List.mem_singleton.mpr rfl)))
            · exact Or.inr h
  rw [jsStringSet, main l []]
  simp

theorem find?_name_first (l1 l2 : List SchemaType) (ty : SchemaType) (n : String)
    (hname : ty.name = n) (hnot : ∀ t ∈ l1, t.name ≠ n) :
    (l1 ++ ty :: l2).find? (fun t => t.name == n) = some ty := by
  induction l1 with
  | nil =>
    rw [List.nil_append]
    exact List.find?_cons_of_pos _ (by simp [hname])
  | cons a l1 ih =>
    rw [List.cons_append,
      List.find?_cons_of_neg _ (by simpa using hnot a (List.mem_cons_self _ _))]
    exact ih (fun t ht => hnot t (List.mem_cons_of_mem _ ht))

/-! ## Claim theorems -/

/-- C1 (counterexample): with type names containing `->`/`:` the
concatenated dedup key is not injective in the (source, target, label)
triple.  In `collidingSchema` the candidate stream contains two candidates
with the triple (`a`, `b:c`, `d`), yet no emitted edge carries that triple
at all — the first-encountered triple-sharer is not kept, because an
earlier candidate with the different triple (`a`, `b`, `c:d`) already
claimed the same concatenated key `a->b:c:d`. -/
theorem claim_C1_counterexample :
    convertEdges collidingSchema
        = [{ source := "a", target := "b", label := "c:d",
             kind := RelKind.directReference, anchor := "a:c:d_left:w" }]
    ∧ (schemaCandidates collidingSchema).countP
        (fun c => c.source == "a" && c.target == "b:c" && c.label == "d") = 2
    ∧ (convertEdges collidingSchema).countP
        (fun e => e.source == "a" && e.target == "b:c" && e.label == "d") = 0 := by
  refine ⟨by decide, by decide, by decide⟩

/-- C1 (amended): for every input schema, the emitted edges pairwise differ
in at least one component of (source, target, displayLabel); every emitted
edge is the first candidate in type-then-field iteration order bearing its
concatenated string key `source ++ "->" ++ target ++ ":" ++ label`
(so in particular the first bearing its triple), kept with its exact style
tag; and every candidate key is represented by some emitted edge.  Distinct
triples may collide on the concatenated key, in which case the later
candidate is discarded entirely. -/
theorem claim_C1_theorem : ∀ schema : ParsedSchema,
    (convertEdges schema).Pairwise
      (fun e₁ e₂ => ¬(e₁.source = e₂.source ∧ e₁.target = e₂.target ∧ e₁.label = e₂.label))
    ∧ (∀ e ∈ convertEdges schema,
        (schemaCandidates schema).find? (fun c => edgeKeyOf c == edgeKeyOf e) = some e)
    ∧ (∀ c ∈ schemaCandidates schema,
        ∃ e ∈ convertEdges schema, edgeKeyOf e = edgeKeyOf c) := by
  intro schema
  rw [convertEdges_eq_keepFirsts]
  refine ⟨?_, ?_, ?_⟩
  · refine (keepFirsts_pairwise [] (schemaCandidates schema)).imp ?_
    intro a b hab hcomp
    exact hab (by unfold edgeKeyOf edgeKey; rw [hcomp.1, hcomp.2.1, hcomp.2.2])
  · intro e he
    exact keepFirsts_find he
  · intro c hc
    rcases @keepFirsts_complete [] (schemaCandidates schema) c hc with hin | h
    · exact absurd hin (by simp)
    · exact h

/-- C1 (witness): the inferred `product -> category` edge of the scenario
schema is emitted, and it is the first candidate bearing its key. -/
theorem claim_C1_witness :
    categoryRefInferredEdge ∈ convertEdges productCategorySchema
    ∧ (schemaCandidates productCategorySchema).find?
        (fun c => edgeKeyOf c == edgeKeyOf categoryRefInferredEdge)
        = some categoryRefInferredEdge :=
  ⟨by decide, (claim_C1_theorem productCategorySchema).2.1 categoryRefInferredEdge (by decide)⟩

/-- C2 (counterexample): `findPossibleReferenceTargets` neither
deduplicates its result (field name `category` with title `Category`
yields `category` twice) nor removes whitespace from the title (`My Type`
fails to match the type `mytype`, which the claimed procedure would
return). -/
theorem claim_C2_counterexample :
    findPossibleReferenceTargets categoryOnlySchema "category" (some "Category")
        = ["category", "category"]
    ∧ ¬ (findPossibleReferenceTargets categoryOnlySchema "category" (some "Category")).Nodup
    ∧ findPossibleReferenceTargets mytypeSchema "x" (some "My Type") = []
    ∧ claimFindTargets mytypeSchema "x" (some "My Type") = ["mytype"]
    ∧ findPossibleReferenceTargets mytypeSchema "x" (some "My Type")
        ≠ claimFindTargets mytypeSchema "x" (some "My Type") := by
  refine ⟨by decide, by decide, by decide, by decide, by decide⟩

/-- C2 (amended): for every registry, field name and title, the heuristic
returns the ordered (but not deduplicated) list built by trying, in order,
the field name; the title lower-cased with whitespace kept; the
suffix-stripped name when it differs from the name — each candidate
independently checked to be in `allTypeNames` with category document or
object, and failing candidates dropped, not substituted. -/
theorem claim_C2_theorem :
    ∀ (schema : ParsedSchema) (fieldName : String) (fieldTitle : Option String),
      findPossibleReferenceTargets schema fieldName fieldTitle
        = specFindTargetsAmended schema fieldName fieldTitle :=
  fun schema fieldName fieldTitle => fpt_eq_specAmended schema fieldName fieldTitle

/-- C3 (counterexample): the monolithic normalizer's eager inference and
the resolver's `findPossibleReferenceTargets` are not extensionally equal:
the eager inference validates nothing against the registry (it infers
`category` even over the empty registry, where the resolver finds no
target) and tries the suffix-stripped name first (for `tagRef` it returns
`tag`, while the resolver lists `tagRef` first). -/
theorem claim_C3_counterexample :
    inferReferenceTarget "category" none = some "category"
    ∧ findPossibleReferenceTargets emptySchema "category" none = []
    ∧ (inferReferenceTarget "category" none).toList
        ≠ findPossibleReferenceTargets emptySchema "category" none
    ∧ inferReferenceTarget "tagRef" none = some "tag"
    ∧ findPossibleReferenceTargets tagRefSchema "tagRef" none = ["tagRef", "tag"] := by
  refine ⟨by decide, by decide, by decide, by decide, by decide⟩

/-- C3 (amended): the monolithic normalizer's eager target inference
returns, with no registry validation at all, the first non-empty candidate
of the ordered list [suffix-stripped field name; title lower-cased with
whitespace removed, when the title is present; the field name itself; the
field name minus a trailing `s`, when plural] — a different heuristic from
the resolver's `findPossibleReferenceTargets`, in both validation and
candidate order. -/
theorem claim_C3_theorem :
    ∀ (fieldName : String) (fieldTitle : Option String),
      inferReferenceTarget fieldName fieldTitle = specEagerInfer fieldName fieldTitle :=
  fun fieldName fieldTitle => infer_eq_specEagerInfer fieldName fieldTitle

/-- C4 (counterexample): routed through the cited monolithic schema.club
normalizer (`transformSchemaClubField` eagerly infers `category` and
records it as an explicit target), the scenario input produces exactly one
edge `product -> category`, but with displayLabel `categoryRef` and kind
direct-reference — not `categoryRef?`/inferred-reference as claimed. -/
theorem claim_C4_counterexample :
    (schemaClubParseMono (Except.ok productCategoryRoot) true none).map convertEdges
        = Except.ok [categoryRefDirectEdge]
    ∧ categoryRefDirectEdge.label = "categoryRef"
    ∧ categoryRefDirectEdge.kind = RelKind.directReference
    ∧ ("categoryRef" : String) ≠ "categoryRef?"
    ∧ RelKind.directReference ≠ RelKind.inferredReference := by
  refine ⟨rfl, by decide, by decide, by decide, by decide⟩

/-- C4 (amended): for the scenario input (document `product` with a
reference field `categoryRef` lacking an explicit target, plus document
`category`), the produced graph contains exactly one edge
`product -> category`; through the monolithic schema.club normalizer the
edge carries displayLabel `categoryRef` and kind direct-reference (the
eager inference has turned it into an explicit target), while through the
modular schema.club parser (which performs no eager inference) it carries
displayLabel `categoryRef?` and kind inferred-reference, as the claim
states. -/
theorem claim_C4_theorem :
    (schemaClubParseMono (Except.ok productCategoryRoot) true none).map convertEdges
        = Except.ok [categoryRefDirectEdge]
    ∧ (schemaClubParse (Except.ok productCategoryRoot) true none).map convertEdges
        = Except.ok [categoryRefInferredEdge] := ⟨rfl, rfl⟩

/-- C5 (counterexample): `createParsedSchema` does not drop a later
duplicate type name: feeding two types named `a` through the schema.club
parser yields a registry whose `types` list still holds both occurrences
(the claim says only the first is retained; no warning is reported
anywhere in this code path). -/
theorem claim_C5_counterexample :
    (schemaClubParse (Except.ok duplicateNamesRoot) true none).map
        (fun ps => ps.types.map (fun t => t.name))
      = Except.ok ["a", "a"]
    ∧ (schemaClubParse (Except.ok duplicateNamesRoot) true none).map
        (fun ps => ps.types.length)
      = Except.ok 2 := ⟨rfl, rfl⟩

/-- C5 (amended): the constructed `ParsedSchema` retains every occurrence
of a duplicated name in its `types` list, in input order; only the derived
name sets collapse the duplicate; no exception is raised (construction is
total) and no warning is reported; name-based lookups through
`types.find?` resolve to the first occurrence. -/
theorem claim_C5_theorem :
    (∀ (ts : List SchemaType) (f : SchemaType → Bool), (createParsedSchema ts f).types = ts)
    ∧ (∀ (ts : List SchemaType) (f : SchemaType → Bool) (n : String),
        n ∈ (createParsedSchema ts f).allTypeNames ↔ ∃ ty ∈ ts, ty.name = n)
    ∧ (∀ (ts : List SchemaType) (f : SchemaType → Bool) (n : String),
        n ∈ (createParsedSchema ts f).documentTypes ↔ ∃ ty ∈ ts, f ty = true ∧ ty.name = n)
    ∧ (∀ (f : SchemaType → Bool) (l1 l2 : List SchemaType) (ty : SchemaType) (n : String),
        ty.name = n → (∀ t ∈ l1, t.name ≠ n) →
        (createParsedSchema (l1 ++ ty :: l2) f).types.find? (fun t => t.name == n) = some ty) := by
  refine ⟨fun ts f => rfl, ?_, ?_, ?_⟩
  · intro ts f n
    show n ∈ jsStringSet (ts.map (fun t => t.name)) ↔ _
    rw [mem_jsStringSet]
    simp [List.mem_map]
  · intro ts f n
    show n ∈ jsStringSet ((ts.filter f).map (fun t => t.name)) ↔ _
    rw [mem_jsStringSet]
    simp only [List.mem_map, List.mem_filter]
    constructor
    · rintro ⟨ty, ⟨hty, hf⟩, rfl⟩
      exact ⟨ty, hty, hf, rfl⟩
    · rintro ⟨ty, hty, hf, rfl⟩
      exact ⟨ty, ⟨hty, hf⟩, rfl⟩
  · intro f l1 l2 ty n hname hnot
    exact find?_name_first l1 l2 ty n hname hnot

/-- C5 (witness): in a registry built from `category` then `product`, the
name-based lookup for `product` resolves to the `product` record. -/
theorem claim_C5_witness :
    (createParsedSchema [categoryRawType, productRawType]
        (fun t => t.type == "document")).types.find?
        (fun t => t.name == "product") = some productRawType :=
  claim_C5_theorem.2.2.2 (fun t => t.type == "document") [categoryRawType] []
    productRawType "product" rfl (by decide)

/-- C6: edge resolution is defensive and total.  Every edge added by
`processFieldForEdges` or `processArrayItemForEdges` points at a name
carried by some document- or object-category type of the registry; a
reference descriptor whose explicit targets all fail the registry/category
check adds nothing and leaves the converter state unchanged, and a
reference descriptor with no explicit target and no inference hit likewise
leaves the state unchanged (resolution never raises: the embedded
resolution functions are total). -/
theorem claim_C6_theorem :
    (∀ (src fid : String) (f : SchemaField) (st : ConvState) (e : Edge),
        e ∈ (processFieldForEdges src fid f st).edges →
        e ∈ st.edges ∨ existsGraphType st.schema e.target)
    ∧ (∀ (src fid : String) (item : SchemaField) (st : ConvState) (e : Edge),
        e ∈ (processArrayItemForEdges src fid item st).edges →
        e ∈ st.edges ∨ existsGraphType st.schema e.target)
    ∧ (∀ (src fid : String) (f : SchemaField) (st : ConvState) (ts : List String),
        f.type = "reference" → f.toTargets = some ts → 0 < ts.length →
        (∀ t ∈ ts, typeNameIsGraphCategory st.schema t = false) →
        processFieldForEdges src fid f st = st)
    ∧ (∀ (src fid : String) (f : SchemaField) (st : ConvState),
        f.type = "reference" →
        (f.toTargets = none ∨ f.toTargets = some []) →
        findPossibleReferenceTargets st.schema fid f.title = [] →
        processFieldForEdges src fid f st = st)
    ∧ (∀ (src fid : String) (item : SchemaField) (st : ConvState) (ts : List String),
        item.type = "reference" → item.toTargets = some ts → 0 < ts.length →
        (∀ t ∈ ts, typeNameIsGraphCategory st.schema t = false) →
        processArrayItemForEdges src fid item st = st) := by
  refine ⟨?_, ?_, ?_, ?_, ?_⟩
  · intro src fid f st e he
    rw [processFieldForEdges_eq, addCandidates_edges] at he
    rcases List.mem_append.mp he with h | h
    · exact Or.inl h
    · exact Or.inr (mem_fieldCandidates_target (keepFirsts_subset h))
  · intro src fid item st e he
    rw [processArrayItemForEdges_eq, addCandidates_edges] at he
    rcases List.mem_append.mp he with h | h
    · exact Or.inl h
    · exact Or.inr (mem_arrayItemCandidates_target (keepFirsts_subset h))
  · intro src fid f st ts hr hts hlen hinv
    rw [processFieldForEdges_eq]
    unfold fieldCandidates
    rw [refCands_nil_of_invalid hr hts hlen hinv,
      objCands_nil_of_type (show (f.type == "object") = false by rw [hr]; rfl),
      fieldArrayCands_nil_of_type (show (f.type == "array") = false by rw [hr]; rfl)]
    rfl
  · intro src fid f st hr hts hfpt
    rw [processFieldForEdges_eq]
    unfold fieldCandidates
    rw [refCands_nil_of_no_inference hr hts hfpt,
      objCands_nil_of_type (show (f.type == "object") = false by rw [hr]; rfl),
      fieldArrayCands_nil_of_type (show (f.type == "array") = false by rw [hr]; rfl)]
    rfl
  · intro src fid item st ts hr hts hlen hinv
    rw [processArrayItemForEdges_eq]
    unfold arrayItemCandidates
    rw [refCands_nil_of_invalid hr hts hlen hinv,
      objCands_nil_of_type (show (item.type == "object") = false by rw [hr]; rfl)]
    rfl

/-- C6 (witness): a reference field whose only explicit target `ghost` is
absent from the registry leaves a fresh converter state unchanged. -/
theorem claim_C6_witness :
    processFieldForEdges "product" "ghostRef" ghostRefField
        (newGraphConverter productCategorySchema)
      = newGraphConverter productCategorySchema :=
  claim_C6_theorem.2.2.1 "product" "ghostRef" ghostRefField
    (newGraphConverter productCategorySchema) ["ghost"] rfl rfl (by decide) (by decide)

/-- C7: the modular `SanityParser.parse` — the unimplemented third
dialect's normalizer — deterministically fails with the NotImplemented
message for every input and never produces a `ParsedSchema` (so it cannot
fall back to another dialect's normalization logic). -/
theorem claim_C7_theorem :
    ∀ (strict : Except String RawRoot) (bracketShaped : Bool)
      (evalResult : Option RawRoot),
      parseWithFormat InputFormat.sanity strict bracketShaped evalResult
          = Except.error "Sanity format parser not yet implemented. Coming soon!"
      ∧ (parseWithFormat InputFormat.sanity strict bracketShaped evalResult).isOk = false :=
  fun _ _ _ => ⟨rfl, rfl⟩

/-- C8: the modular schema.club normalization classifies its failures
exactly as the spec states: success on an array root (strict or via the
bracket-shaped literal-evaluation fallback), the array-expected
(UnrecognizedFormat) error exactly when a root was parsed but is not an
array, and the `Failed to parse schema file: <strict message>`
(ParseFailure) error exactly when strict parsing fails and the fallback
fails too. -/
theorem claim_C8_theorem :
    ∀ (strict : Except String RawRoot) (bracketShaped : Bool)
      (evalResult : Option RawRoot),
      schemaClubParse strict bracketShaped evalResult
        = specSchemaClubNormalize strict bracketShaped evalResult := by
  intro strict b e
  cases strict with
  | ok v => cases v <;> rfl
  | error m =>
    cases b with
    | true =>
      cases e with
      | some v => cases v <;> rfl
      | none => rfl
    | false => rfl

/-- C9: a complete conversion run (node creation plus edge resolution)
never mutates the `ParsedSchema`: the schema component of the converter
state after `convert` is structurally identical to the one the normalizer
produced and the constructor stored. -/
theorem claim_C9_theorem :
    (∀ st : ConvState, (convert st).schema = st.schema)
    ∧ (∀ schema : ParsedSchema,
        (convert (newGraphConverter schema)).schema = schema) :=
  ⟨fun st => convert_schema_eq st,
   fun schema => convert_schema_eq (newGraphConverter schema)⟩

/-- C10: a top-level field with an absent name produces zero edges —
removing it from the type leaves `createEdges` unchanged on every state,
whatever the field contains (in particular a reference field with valid
in-registry explicit targets). -/
theorem claim_C10_theorem :
    ∀ (st : ConvState) (ty : SchemaType) (fs1 fs2 : List SchemaField) (f : SchemaField),
      ty.fields = some (fs1 ++ f :: fs2) → f.name = none →
      createEdges ty st = createEdges { ty with fields := some (fs1 ++ fs2) } st := by
  intro st ty fs1 fs2 f hf hn
  unfold createEdges
  rw [hf]
  dsimp only
  rw [List.foldl_append, List.foldl_append, List.foldl_cons]
  congr 1
  simp only [hn]

/-- C10 (witness): dropping the nameless reference field (which has the
valid explicit target `category`) from the `owner` type does not change
the edges created for it. -/
theorem claim_C10_witness :
    createEdges namelessFieldType (newGraphConverter productCategorySchema)
      = createEdges
          { namelessFieldType with fields := some [firstNameField, lastNameField] }
          (newGraphConverter productCategorySchema) :=
  claim_C10_theorem (newGraphConverter productCategorySchema) namelessFieldType
    [firstNameField] [lastNameField] namelessRefField rfl rfl
